import Mathlib

/-
Shallow embedding of CherenkovDeconvolution.py, covering the modules
`cherenkovdeconvolution/util.py` and `cherenkovdeconvolution/dsea.py`.

Modelling conventions:
* Real-valued numpy data is modelled by `ℚ` (exact arithmetic; "within floating
  tolerance" statements become exact equalities).
* A numpy float that may be NaN or ±Inf is modelled by `PyFloat`; the zeroing of
  non-finite entries performed by `normalizepdf` becomes `zeroNonFinite`.
* 1-d numpy arrays are `List`s; 2-d arrays are `List (List ℚ)` (row major).
* Python exceptions are modelled by `Except PyError`; a function whose body
  cannot raise is modelled as a total function.
* The classifier is an external collaborator (any object with `fit`,
  `predict_proba` and `classes_`); for a fixed training set and data set the
  pair of calls `fit(X_train, y_train, w_train); predict_proba(X_data)` is a
  function of the training weights, so a classifier is modelled as its
  `classes_` list together with that function.
-/

/-- A numpy floating point value: a finite rational, or one of the non-finite
values NaN, +Inf, -Inf. -/
inductive PyFloat where
  | val (q : ℚ)
  | nan
  | inf
  | ninf
deriving DecidableEq, Repr

/-- The Python exceptions that the embedded code can raise. -/
inductive PyError where
  | attributeError
  | nameError
  | valueError
deriving DecidableEq, Repr

/-- The finite value of a `PyFloat` after the in-place replacement
`np.put(arr, np.argwhere(~np.isfinite(arr)), 0.0)`: non-finite entries become 0. -/
def PyFloat.toVal : PyFloat → ℚ
  | .val q => q
  | .nan => 0
  | .inf => 0
  | .ninf => 0

/-- Line 100 of util.py: replace NaNs and Infs by zero. -/
def zeroNonFinite (arr : List PyFloat) : List ℚ :=
  arr.map PyFloat.toVal

/-- Result of `normalizepdf`: the returned array together with whether the
degenerate-sum warning was emitted (`warn(...)` on line 107 of util.py). -/
structure NormResult where
  arr : List ℚ
  warned : Bool
deriving DecidableEq, Repr

/-- Lines 102-109 of util.py, after the non-finite entries have been zeroed:
divide by the sum, or fall back to the uniform distribution (with a warning)
when the sum is exactly zero. -/
def normalizepdfQ (a : List ℚ) : NormResult :=
  let arrsum := a.sum
  if arrsum ≠ 0 then
    ⟨a.map (fun q => q / arrsum), false⟩
  else
    ⟨a.map (fun _ => 1 / (a.length : ℚ)), true⟩

/-- util.normalizepdf (lines 94-109, default `copy = True` path, so the
dtype check that can raise is not reached): zero the non-finite entries, then
normalize or fall back to uniform. -/
def normalizepdf (arr : List PyFloat) : NormResult :=
  normalizepdfQ (zeroNonFinite arr)

/-- Lines 156-159 of util.py applied to two already-normalized arrays: restrict
to the positions where at least one entry is positive and return
2 * sum((a-b)^2 / (a+b)). -/
def chi2sTerms (an bn : List ℚ) : ℚ :=
  2 * (((an.zip bn).filter
          (fun p => decide (0 < p.1) || decide (0 < p.2))).map
        (fun p => (p.1 - p.2) ^ 2 / (p.1 + p.2))).sum

/-- util.chi2s (lines 136-159, default `normalize = True`): normalize both
arrays, then sum over the positions with a positive denominator. -/
def chi2s (a b : List PyFloat) : ℚ :=
  chi2sTerms (normalizepdf a).arr (normalizepdf b).arr

/-- chi2s on exact rational arrays, as called from dsea.deconvolve on the
estimates of two consecutive iterations. -/
def chi2sQ (a b : List ℚ) : ℚ :=
  chi2sTerms (normalizepdfQ a).arr (normalizepdfQ b).arr

/-- Insert into a list sorted by `le` (helper for the sorts below). -/
def insertLe {α : Type} (le : α → α → Bool) (a : α) : List α → List α
  | [] => [a]
  | b :: l => if le a b then a :: b :: l else b :: insertLe le a l

/-- Insertion sort by `le` (helper modelling numpy's sorting; on lists with
distinct keys every comparison sort produces the same result). -/
def isort {α : Type} (le : α → α → Bool) (l : List α) : List α :=
  l.foldr (insertLe le) []

/-- np.unique on an integer array: the distinct values, sorted ascending. -/
def npUniqueZ (l : List ℤ) : List ℤ :=
  isort (fun a b => decide (a ≤ b)) l.dedup

/-- np.unique on a natural-number array: the distinct values, sorted ascending. -/
def npUniqueN (l : List ℕ) : List ℕ :=
  isort (fun a b => decide (a ≤ b)) l.dedup

/-- The boolean-mask selection `x[y == i]` of util.fit_R (line 72): the entries
of `x` at the positions where the parallel array `y` equals `i`. -/
def selectTarget (x y : List ℕ) (i : ℕ) : List ℕ :=
  ((x.zip y).filter (fun p => decide (p.2 = i))).map Prod.fst

/-- np.bincount(xs, minlength): entry j counts the occurrences of j in xs; the
length is the maximum of `minlength` and (largest entry)+1. -/
def bincount (xs : List ℕ) (minlength : ℕ) : List ℕ :=
  (List.range (max minlength (xs.foldr (fun a m => max (a + 1) m) 0))).map
    (fun j => xs.count j)

/-- The loop `for i in range(I)` of util.fit_R (lines 71-73), iterating over the
remaining target indices.  The assignment `R[:, i] = ...` requires the bincount
to have exactly J entries; numpy raises a ValueError otherwise. -/
def fitRLoop (x y : List ℕ) (J : ℕ) (normalize : Bool) :
    List ℕ → Except PyError (List (List ℚ))
  | [] => Except.ok []
  | i :: rest =>
      let bc := (bincount (selectTarget x y i) J).map (Nat.cast : ℕ → ℚ)
      if bc.length = J then
        match fitRLoop x y J normalize rest with
        | Except.ok cols =>
            Except.ok ((if normalize then (normalizepdfQ bc).arr else bc) :: cols)
        | Except.error e => Except.error e
      else Except.error PyError.valueError

/-- util.fit_R (lines 51-74).  The J×I response matrix is represented
column major: the i-th entry of the result is the i-th column R[:, i]. -/
def fit_R (x y : List ℕ) (normalize : Bool) : Except PyError (List (List ℚ)) :=
  let I := (npUniqueN y).length
  let J := (npUniqueN x).length
  fitRLoop x y J normalize (List.range I)

/-- util.smooth_polynomial (lines 112-133).  The numpy least-squares fit
`np.polyval(np.polyfit(x, arr, order), x)` is external numerical code and is
passed in as the function `polyfit_polyval`.  In the `else` branch the source
evaluates `ValueError(...)` but never raises it (there is no `raise` keyword),
so the exception object is discarded and the function returns None, modelled by
`Except.ok none`. -/
def smooth_polynomial (polyfit_polyval : List ℚ → ℕ → List ℚ)
    (arr : List ℚ) (order : ℕ) : Except PyError (Option (List ℚ)) :=
  if order < arr.length then
    Except.ok (some (polyfit_polyval arr order))
  else
    Except.ok none

/-- A trained-and-applied classifier, the external collaborator of dsea.py:
`classes` is the ordered list `classifier.classes_` of labels it learned, and
`predict w_train` is the confidence matrix produced by
`classifier.fit(X_train, y_train, w_train)` followed by
`classifier.predict_proba(X_data)` (X_train, y_train and X_data are fixed for
one deconvolution run, so the two calls are a function of the weights). -/
structure Classifier where
  classes : List ℤ
  predict : List ℚ → List (List ℚ)

/-- np.argsort of an integer array: the list of indices that sorts the array
ascending (unique for the duplicate-free arrays it is applied to). -/
def argsort (v : List ℤ) : List ℕ :=
  isort (fun i j => decide (v.getD i 0 ≤ v.getD j 0)) (List.range v.length)

/-- The numpy fancy-index assignment `row[dst] = row[src]` on one row: the
right-hand side is read from the original row (numpy copies it before the
scatter), then position dst[t] receives row[src[t]] for each t. -/
def fancyAssign (row : List ℚ) (dst src : List ℕ) : List ℚ :=
  (dst.zip src).foldl (fun r p => r.set p.1 (row.getD p.2 0)) row

/-- dsea._train_and_predict_proba (lines 151-158): obtain the confidence
matrix, then execute the column assignment
`proba[:, np.argsort(classifier.classes_)] = proba[:, np.argsort(ylevels)]`
row by row. -/
def _train_and_predict_proba (classifier : Classifier) (w_train : List ℚ)
    (ylevels : List ℤ) : List (List ℚ) :=
  let proba := classifier.predict w_train
  proba.map (fun row => fancyAssign row (argsort classifier.classes) (argsort ylevels))

/-- dsea._dsea_reconstruct (lines 162-163): `np.apply_along_axis(np.sum, 0, proba)`,
the column-wise sums of the confidence matrix. -/
def _dsea_reconstruct (proba : List (List ℚ)) : List ℚ :=
  match proba with
  | [] => []
  | r :: _ => (List.range r.length).map (fun j => (proba.map (fun row => row.getD j 0)).sum)

/-- dsea._dsea_weights (lines 139-147, default `out = None` path): normalize the
bin weights, then for each (level, weight) pair set the entries of the output at
the positions where y_train equals the level to `max(w, 1/len(y_train))`
(the `np.put` call on line 146). -/
def putWhere (y_train : List ℤ) (y : ℤ) (v : ℚ) (out : List ℚ) : List ℚ :=
  List.zipWith (fun a b => if a = y then v else b) y_train out

/-- dsea._dsea_weights itself: `zip(ylevels, w_bin)` truncates to the shorter
list, exactly like Python's `zip`. -/
def _dsea_weights (y_train : List ℤ) (w_bin : List ℚ) (ylevels : List ℤ) : List ℚ :=
  let wb := (normalizepdfQ w_bin).arr
  (ylevels.zip wb).foldl
    (fun out p => putWhere y_train p.1 (max p.2 (1 / (y_train.length : ℚ))) out)
    (List.replicate y_train.length 0)

/-- The `alpha` argument of dsea.deconvolve: either a constant step size or a
step-size function of (iteration index, search direction, previous estimate). -/
inductive StepAlpha where
  | const (a : ℚ)
  | func (g : ℕ → List ℚ → List ℚ → ℚ)

/-- The name `k` read on line 169 of dsea.py is a free (global) name inside
`_dsea_step`: `k` is a local variable of `deconvolve`, and the module namespace
of dsea.py binds only `np`, `util` and the five functions it defines, so the
lookup of `k` finds nothing. -/
def lookupGlobalK : Option ℕ := none

/-- dsea._dsea_step (lines 167-170): compute the search direction
`pk = f - f_prev`; when `alpha` is callable evaluate `alpha(k, pk, f_prev)`,
which first resolves the name `k` (raising NameError when the lookup fails);
otherwise use the constant; return `f_prev + alphak * pk` and `alphak`. -/
def _dsea_step (f f_prev : List ℚ) (alpha : StepAlpha) :
    Except PyError (List ℚ × ℚ) :=
  let pk := List.zipWith (fun a b => a - b) f f_prev
  match alpha with
  | StepAlpha.const a =>
      Except.ok (List.zipWith (fun b d => b + a * d) f_prev pk, a)
  | StepAlpha.func g =>
      match lookupGlobalK with
      | some k =>
          let ak := g k pk f_prev
          Except.ok (List.zipWith (fun b d => b + ak * d) f_prev pk, ak)
      | none => Except.error PyError.nameError

/-- The bin-level weights passed to `_dsea_weights` by deconvolve (lines 107 and
132): `f / f_train` elementwise when fixweighting, else `f` itself. -/
def binWeights (f f_train : List ℚ) (fixweighting : Bool) : List ℚ :=
  if fixweighting then List.zipWith (fun a b => a / b) f f_train else f

/-- The iteration `for k in range(1, K+1)` of dsea.deconvolve (lines 112-133).
The first argument counts the remaining iterations (`K - k + 1`); the loop
carries the estimate `f`, the training weights `w_train` and the confidence
matrix of the previous iteration (None before the first one).  The `inspect`
callback is the default None and is omitted.  When the Chi-Square distance
drops below epsilon the loop breaks; when `k < K` the weights are recomputed
for the next iteration. -/
def dseaLoop (classifier : Classifier) (y_train : List ℤ) (ylevels : List ℤ)
    (f_train : List ℚ) (fixweighting : Bool) (alpha : StepAlpha) (epsilon : ℚ) :
    ℕ → ℕ → List ℚ → List ℚ → Option (List (List ℚ)) →
    Except PyError (List ℚ × Option (List (List ℚ)))
  | 0, _, f, _, proba? => Except.ok (f, proba?)
  | Nat.succ r, k, f, w_train, _ =>
      let f_prev := f
      let proba := _train_and_predict_proba classifier w_train ylevels
      match _dsea_step (_dsea_reconstruct proba) f_prev alpha with
      | Except.error e => Except.error e
      | Except.ok (fNew, _alphak) =>
          let chi := chi2sQ f_prev fNew
          if chi < epsilon then Except.ok (fNew, some proba)
          else if r = 0 then Except.ok (fNew, some proba)
          else
            dseaLoop classifier y_train ylevels f_train fixweighting alpha epsilon
              r (k + 1) fNew
              (_dsea_weights y_train (binWeights fNew f_train fixweighting) ylevels)
              (some proba)

/-- The value returned by deconvolve: the estimate alone, or the estimate
together with the confidence matrix when `return_contributions` is set. -/
abbrev DeconvReturn := Sum (List ℚ) (List ℚ × List (List ℚ))

/-- The attribute lookup `util.histogram` on line 106 of dsea.py.  The module
util.py defines exactly `equidistant_bin_edges`, `fit_R`, `normalizepdf`,
`smooth_polynomial` and `chi2s` (plus the imported names `np` and `warn`); it
defines no attribute `histogram`, so the lookup raises AttributeError. -/
def utilLookupHistogram : Except PyError (List ℤ → List ℤ → List ℚ) :=
  Except.error PyError.attributeError

/-- dsea.deconvolve (lines 25-135).  Defaults are resolved first
(`ylevels = np.unique(y_train)`, `f_0 = np.ones(m)/m`); then line 106 evaluates
`util.histogram(y_train, ylevels) / m`, whose attribute lookup must succeed
before anything else of the iteration can run; the remainder is the weight
initialization, the iteration loop, and the final
`return (f, proba) if return_contributions else f` (in which `proba` is an
unbound local when the loop body never ran, a NameError). -/
def deconvolve (y_train : List ℤ) (classifier : Classifier)
    (ylevels_opt : Option (List ℤ)) (f_0_opt : Option (List ℚ))
    (fixweighting : Bool) (alpha : StepAlpha) (K : ℕ) (epsilon : ℚ)
    (return_contributions : Bool) : Except PyError DeconvReturn :=
  let ylevels := ylevels_opt.getD (npUniqueZ y_train)
  let m := ylevels.length
  let f_0 := f_0_opt.getD (List.replicate m (1 / (m : ℚ)))
  let f := f_0
  match utilLookupHistogram with
  | Except.error e => Except.error e
  | Except.ok histogram =>
      let f_train := (histogram y_train ylevels).map (fun q => q / (m : ℚ))
      let w_train := _dsea_weights y_train (binWeights f f_train fixweighting) ylevels
      match dseaLoop classifier y_train ylevels f_train fixweighting alpha epsilon
          K 1 f w_train none with
      | Except.error e => Except.error e
      | Except.ok (fFinal, proba?) =>
          if return_contributions then
            match proba? with
            | some p => Except.ok (Sum.inr (fFinal, p))
            | none => Except.error PyError.nameError
          else Except.ok (Sum.inl fFinal)

/-- Decidable equality for `Except`, so that concrete runs of the embedded
functions can be checked by `decide`. -/
instance exceptDecEq {ε α : Type} [DecidableEq ε] [DecidableEq α] :
    DecidableEq (Except ε α)
  | Except.ok a, Except.ok b =>
      if h : a = b then isTrue (congrArg Except.ok h)
      else isFalse (fun hh => h (Except.ok.inj hh))
  | Except.ok _, Except.error _ => isFalse (fun hh => Except.noConfusion hh)
  | Except.error _, Except.ok _ => isFalse (fun hh => Except.noConfusion hh)
  | Except.error a, Except.error b =>
      if h : a = b then isTrue (congrArg Except.error h)
      else isFalse (fun hh => h (Except.error.inj hh))

/-! Helper lemmas about the numerical utilities. -/

theorem sum_map_div (l : List ℚ) (s : ℚ) :
    (l.map (fun q => q / s)).sum = l.sum / s := by
  induction l with
  | nil => simp
  | cons a t ih => simp [ih, add_div]

theorem normalizepdfQ_sum (a : List ℚ) (hs : a.sum ≠ 0) :
    (normalizepdfQ a).arr.sum = 1 := by
  simp only [normalizepdfQ, if_pos hs]
  rw [sum_map_div, div_self hs]

theorem normalizepdfQ_nonneg (a : List ℚ) (hs : a.sum ≠ 0)
    (hnn : ∀ q ∈ a, 0 ≤ q) :
    ∀ q ∈ (normalizepdfQ a).arr, 0 ≤ q := by
  have hpos : 0 < a.sum := (List.sum_nonneg hnn).lt_of_ne (Ne.symm hs)
  intro q hq
  simp only [normalizepdfQ, if_pos hs, List.mem_map] at hq
  obtain ⟨x, hx, rfl⟩ := hq
  exact div_nonneg (hnn x hx) hpos.le

theorem filterMapSum_swap (p : ℚ × ℚ → Bool) (t : ℚ × ℚ → ℚ)
    (hp : ∀ x : ℚ × ℚ, p (x.2, x.1) = p x) (ht : ∀ x : ℚ × ℚ, t (x.2, x.1) = t x) :
    ∀ an bn : List ℚ,
      (((an.zip bn).filter p).map t).sum = (((bn.zip an).filter p).map t).sum := by
  intro an
  induction an with
  | nil => intro bn; cases bn <;> simp
  | cons a as ih =>
    intro bn
    cases bn with
    | nil => simp
    | cons b bs =>
      simp only [List.zip_cons_cons, List.filter_cons]
      rw [hp (a, b)]
      cases hc : p (a, b) with
      | false => simpa using ih bs
      | true => simp [ht (a, b), ih bs]

theorem chi2sTerms_comm (an bn : List ℚ) : chi2sTerms an bn = chi2sTerms bn an := by
  unfold chi2sTerms
  rw [filterMapSum_swap]
  · intro x; cases x with | mk x1 x2 => simp [Bool.or_comm]
  · intro x
    cases x with
    | mk x1 x2 =>
      show (x2 - x1) ^ 2 / (x2 + x1) = (x1 - x2) ^ 2 / (x1 + x2)
      rw [add_comm x2 x1]
      congr 1
      ring

theorem chi2sTerms_self (l : List ℚ) : chi2sTerms l l = 0 := by
  unfold chi2sTerms
  have h : ∀ m : List ℚ,
      (((m.zip m).filter (fun p => decide (0 < p.1) || decide (0 < p.2))).map
        (fun p => (p.1 - p.2) ^ 2 / (p.1 + p.2))).sum = 0 := by
    intro m
    induction m with
    | nil => simp
    | cons x xs ih =>
      simp only [List.zip_cons_cons, List.filter_cons]
      cases hc : (decide (0 < x) || decide (0 < x)) with
      | false => simpa using ih
      | true => simpa using ih
  rw [h]
  simp

/-! Claim theorems. -/

/-- Claim C1: the claim says `_dsea_step` computes pk = f - f_prev and the new
estimate f_prev + step_size * pk, where a callable alpha is invoked with
(k, pk, f_prev).  On the code this fails for every callable alpha: inside
`_dsea_step` the name `k` is unbound (it is a local variable of `deconvolve`),
so the call raises NameError instead of invoking the step-size function.  With
a constant alpha the step is computed exactly as claimed, which this theorem
also records at alpha = 1/2, f = [1, 0], f_prev = [0, 1]. -/
theorem dsea_step_callable_name_error :
    _dsea_step [1, 0] [0, 1] (StepAlpha.func (fun _ _ _ => 1 / 2))
      = Except.error PyError.nameError ∧
    _dsea_step [1, 0] [0, 1] (StepAlpha.const (1 / 2))
      = Except.ok ([1 / 2, 1 / 2], 1 / 2) := by
  refine ⟨rfl, ?_⟩
  with_unfolding_all decide

/-- Claim C2: the claim says that after the column reordering in
`_train_and_predict_proba`, column j of the confidence matrix corresponds to
ylevels[j], and that the reconstructed estimate is invariant to the
classifier's internal class order.  Counterexample on the code: take
per-class confidences conf(0)=10, conf(1)=20, conf(2)=30 and
ylevels = [2,0,1].  A classifier with classes_ = [0,1,2] (one row
[10,20,30], column c holding class classes_[c]) is realigned to [20,30,10],
not to the required [conf(2),conf(0),conf(1)] = [30,10,20]; and its
reconstructed estimate differs from that of a classifier with
classes_ = [2,0,1] holding the same per-class confidences.  The permutation
[2,0,1] → sorted is a 3-cycle; the assignment
`proba[:, argsort(classes_)] = proba[:, argsort(ylevels)]` is only correct
when argsort(ylevels) ∘ argsort(classes_)⁻¹ is an involution. -/
theorem train_and_predict_proba_misaligned :
    _train_and_predict_proba ⟨[0, 1, 2], fun _ => [[10, 20, 30]]⟩ [] [2, 0, 1]
      = [[20, 30, 10]] ∧
    _train_and_predict_proba ⟨[0, 1, 2], fun _ => [[10, 20, 30]]⟩ [] [2, 0, 1]
      ≠ [[30, 10, 20]] ∧
    _dsea_reconstruct
        (_train_and_predict_proba ⟨[2, 0, 1], fun _ => [[30, 10, 20]]⟩ [] [2, 0, 1])
      ≠ _dsea_reconstruct
        (_train_and_predict_proba ⟨[0, 1, 2], fun _ => [[10, 20, 30]]⟩ [] [2, 0, 1]) := by
  refine ⟨?_, ?_, ?_⟩ <;> with_unfolding_all decide

/-- Claim C3: for every input with a non-empty y_train and any option values,
deconvolve raises AttributeError before completing iteration 0, because it
unconditionally evaluates `util.histogram(y_train, ylevels)` and the util
module defines no `histogram`; hence deconvolve never returns an estimate. -/
theorem deconvolve_attribute_error (y_train : List ℤ) (classifier : Classifier)
    (ylevels_opt : Option (List ℤ)) (f_0_opt : Option (List ℚ))
    (fixweighting : Bool) (alpha : StepAlpha) (K : ℕ) (epsilon : ℚ)
    (return_contributions : Bool) (hne : y_train ≠ []) :
    deconvolve y_train classifier ylevels_opt f_0_opt fixweighting alpha K
        epsilon return_contributions = Except.error PyError.attributeError := rfl

/-- Witness for C3 at a concrete input. -/
theorem deconvolve_attribute_error_witness :
    ([0] : List ℤ) ≠ [] ∧
    deconvolve [0] ⟨[0], fun _ => [[1]]⟩ none none true (StepAlpha.const 1) 1 0 false
      = Except.error PyError.attributeError :=
  ⟨by with_unfolding_all decide,
   deconvolve_attribute_error [0] ⟨[0], fun _ => [[1]]⟩ none none true
     (StepAlpha.const 1) 1 0 false (by with_unfolding_all decide)⟩

/-- Claim C5, counterexample to the claim as stated: the array [2, -1] has a
non-zero finite sum (1), yet normalizepdf returns [2, -1], whose entry at
index 1 is negative, so the result is not a PMF. -/
theorem normalizepdf_negative_entry :
    (zeroNonFinite [PyFloat.val 2, PyFloat.val (-1)]).sum ≠ 0 ∧
    (normalizepdf [PyFloat.val 2, PyFloat.val (-1)]).arr.getD 1 0 < 0 := by
  refine ⟨?_, ?_⟩ <;> with_unfolding_all decide

/-- Claim C5 (amended): for every array whose entries, after replacing the
non-finite ones with 0, are all nonnegative and whose sum is non-zero,
normalizepdf returns a PMF: every entry of the result is ≥ 0 and the entries
sum to 1. -/
theorem normalizepdf_pmf (arr : List PyFloat)
    (hs : (zeroNonFinite arr).sum ≠ 0)
    (hnn : ∀ q ∈ zeroNonFinite arr, 0 ≤ q) :
    (normalizepdf arr).arr.sum = 1 ∧ ∀ q ∈ (normalizepdf arr).arr, 0 ≤ q :=
  ⟨normalizepdfQ_sum (zeroNonFinite arr) hs,
   normalizepdfQ_nonneg (zeroNonFinite arr) hs hnn⟩

/-- Witness for C5 (amended) at arr = [2, 2]. -/
theorem normalizepdf_pmf_witness :
    (zeroNonFinite [PyFloat.val 2, PyFloat.val 2]).sum ≠ 0 ∧
    (normalizepdf [PyFloat.val 2, PyFloat.val 2]).arr.sum = 1 ∧
    0 ≤ (normalizepdf [PyFloat.val 2, PyFloat.val 2]).arr.getD 0 0 :=
  ⟨by with_unfolding_all decide,
   (normalizepdf_pmf [PyFloat.val 2, PyFloat.val 2] (by with_unfolding_all decide) (by with_unfolding_all decide)).1,
   (normalizepdf_pmf [PyFloat.val 2, PyFloat.val 2] (by with_unfolding_all decide) (by with_unfolding_all decide)).2
     ((normalizepdf [PyFloat.val 2, PyFloat.val 2]).arr.getD 0 0) (by with_unfolding_all decide)⟩

/-- Claim C6: for every non-empty input array each of whose entries is zero or
non-finite (so the sum after zeroing non-finite entries is exactly 0),
normalizepdf returns the uniform distribution of the same length and emits the
warning; the branch is total, no error is raised. -/
theorem normalizepdf_uniform_fallback (arr : List PyFloat)
    (hne : arr ≠ [])
    (hdeg : ∀ a ∈ arr, PyFloat.toVal a = 0) :
    (normalizepdf arr).arr = List.replicate arr.length (1 / (arr.length : ℚ)) ∧
    (normalizepdf arr).warned = true := by
  have hz : ∀ q ∈ zeroNonFinite arr, q = 0 := by
    intro q hq
    simp only [zeroNonFinite, List.mem_map] at hq
    obtain ⟨a, ha, rfl⟩ := hq
    exact hdeg a ha
  have hsum : (zeroNonFinite arr).sum = 0 := List.sum_eq_zero hz
  have hlen : (zeroNonFinite arr).length = arr.length := List.length_map arr _
  constructor
  · simp only [normalizepdf, normalizepdfQ, hsum, ne_eq, not_true_eq_false, if_neg,
      not_false_eq_true, List.map_const', hlen]
  · simp only [normalizepdf, normalizepdfQ, hsum, ne_eq, not_true_eq_false, if_neg,
      not_false_eq_true]

/-- Witness for C6 at arr = [NaN, 0, Inf]. -/
theorem normalizepdf_uniform_fallback_witness :
    ([PyFloat.nan, PyFloat.val 0, PyFloat.inf] ≠ ([] : List PyFloat)) ∧
    (normalizepdf [PyFloat.nan, PyFloat.val 0, PyFloat.inf]).arr
      = List.replicate 3 (1 / (3 : ℚ)) ∧
    (normalizepdf [PyFloat.nan, PyFloat.val 0, PyFloat.inf]).warned = true :=
  ⟨by with_unfolding_all decide,
   (normalizepdf_uniform_fallback [PyFloat.nan, PyFloat.val 0, PyFloat.inf]
     (by with_unfolding_all decide) (by with_unfolding_all decide)).1,
   (normalizepdf_uniform_fallback [PyFloat.nan, PyFloat.val 0, PyFloat.inf]
     (by with_unfolding_all decide) (by with_unfolding_all decide)).2⟩

/-- Claim C7: chi2s is symmetric in its two arguments for same-length arrays,
and chi2s(a, a) = 0 for every non-degenerate a (non-zero sum after the
internal zeroing of non-finite entries). -/
theorem chi2s_symmetric_and_self :
    (∀ a b : List PyFloat, a.length = b.length → chi2s a b = chi2s b a) ∧
    (∀ a : List PyFloat, (zeroNonFinite a).sum ≠ 0 → chi2s a a = 0) :=
  ⟨fun a b _ => chi2sTerms_comm (normalizepdf a).arr (normalizepdf b).arr,
   fun a _ => chi2sTerms_self (normalizepdf a).arr⟩

/-- Witness for C7 at a = [1, 3], b = [3, 1]. -/
theorem chi2s_symmetric_and_self_witness :
    chi2s [PyFloat.val 1, PyFloat.val 3] [PyFloat.val 3, PyFloat.val 1]
      = chi2s [PyFloat.val 3, PyFloat.val 1] [PyFloat.val 1, PyFloat.val 3] ∧
    (zeroNonFinite [PyFloat.val 1, PyFloat.val 3]).sum ≠ 0 ∧
    chi2s [PyFloat.val 1, PyFloat.val 3] [PyFloat.val 1, PyFloat.val 3] = 0 :=
  ⟨chi2s_symmetric_and_self.1 [PyFloat.val 1, PyFloat.val 3]
     [PyFloat.val 3, PyFloat.val 1] rfl,
   by with_unfolding_all decide,
   chi2s_symmetric_and_self.2 [PyFloat.val 1, PyFloat.val 3] (by with_unfolding_all decide)⟩

/-- Claim C9: the claim says deconvolve with K = 0 returns f_0 unchanged (the
loop body never executes).  On the code, deconvolve with K = 0 raises
AttributeError before the loop is ever reached, because line 106 evaluates the
non-existent `util.histogram`; it does not return f_0. -/
theorem deconvolve_K0_attribute_error :
    deconvolve [0, 1] ⟨[0, 1], fun _ => [[1, 0]]⟩ none (some [1 / 2, 1 / 2]) true
        (StepAlpha.const 1) 0 0 false = Except.error PyError.attributeError ∧
    deconvolve [0, 1] ⟨[0, 1], fun _ => [[1, 0]]⟩ none (some [1 / 2, 1 / 2]) true
        (StepAlpha.const 1) 0 0 false ≠ Except.ok (Sum.inl [1 / 2, 1 / 2]) := by
  refine ⟨rfl, ?_⟩
  intro h
  exact Except.noConfusion h

/-- Claim C10: the claim says smooth_polynomial raises for order ≥ len(arr).
On the code, the else branch evaluates `ValueError(...)` without `raise`, so
the exception object is discarded and the function silently returns None:
at arr = [1, 2] and order = 2 (so order ≥ len(arr)) the call returns None and
does not raise. -/
theorem smooth_polynomial_silent_none :
    ¬ 2 < ([1, 2] : List ℚ).length ∧
    smooth_polynomial (fun a _ => a) [1, 2] 2 = Except.ok none := by
  refine ⟨by with_unfolding_all decide, rfl⟩

/-! Helper lemmas for the instance-weight floor (claim C4). -/

theorem normalizepdfQ_length (a : List ℚ) : (normalizepdfQ a).arr.length = a.length := by
  simp only [normalizepdfQ]
  split <;> simp

theorem putWhere_length (y_train : List ℤ) (y : ℤ) (v : ℚ) (out : List ℚ)
    (ho : out.length = y_train.length) :
    (putWhere y_train y v out).length = y_train.length := by
  simp [putWhere, ho]

theorem putWhere_getD (y_train : List ℤ) (y : ℤ) (v : ℚ) (out : List ℚ)
    (i : ℕ) (hi : i < y_train.length) (ho : out.length = y_train.length) :
    (putWhere y_train y v out).getD i 0
      = if y_train.getD i 0 = y then v else out.getD i 0 := by
  have hi2 : i < (putWhere y_train y v out).length := by
    rw [putWhere_length _ _ _ _ ho]; exact hi
  rw [List.getD_eq_getElem _ _ hi2]
  simp only [putWhere] at hi2 ⊢
  rw [List.getElem_zipWith]
  rw [List.getD_eq_getElem _ _ hi, List.getD_eq_getElem _ _ (by rw [ho]; exact hi)]

theorem weightsFold_length (y_train : List ℤ) (L : List (ℤ × ℚ)) (out : List ℚ)
    (ho : out.length = y_train.length) :
    (L.foldl (fun o p => putWhere y_train p.1 (max p.2 (1 / (y_train.length : ℚ))) o)
        out).length = y_train.length := by
  induction L generalizing out with
  | nil => simpa
  | cons p t ih =>
    simp only [List.foldl_cons]
    exact ih _ (putWhere_length _ _ _ _ ho)

theorem weightsFold_preserve (y_train : List ℤ) (L : List (ℤ × ℚ)) (out : List ℚ)
    (ho : out.length = y_train.length) (i : ℕ) (hi : i < y_train.length)
    (hge : 1 / (y_train.length : ℚ) ≤ out.getD i 0) :
    1 / (y_train.length : ℚ)
      ≤ (L.foldl (fun o p => putWhere y_train p.1 (max p.2 (1 / (y_train.length : ℚ))) o)
          out).getD i 0 := by
  induction L generalizing out with
  | nil => simpa using hge
  | cons p t ih =>
    simp only [List.foldl_cons]
    apply ih _ (putWhere_length _ _ _ _ ho)
    rw [putWhere_getD _ _ _ _ i hi ho]
    by_cases h : y_train.getD i 0 = p.1
    · rw [if_pos h]; exact le_max_right _ _
    · rw [if_neg h]; exact hge

theorem weightsFold_write (y_train : List ℤ) (L : List (ℤ × ℚ)) (out : List ℚ)
    (ho : out.length = y_train.length) (i : ℕ) (hi : i < y_train.length)
    (hmem : ∃ p ∈ L, p.1 = y_train.getD i 0) :
    1 / (y_train.length : ℚ)
      ≤ (L.foldl (fun o p => putWhere y_train p.1 (max p.2 (1 / (y_train.length : ℚ))) o)
          out).getD i 0 := by
  induction L generalizing out with
  | nil =>
    obtain ⟨p, hp, _⟩ := hmem
    exact absurd hp (List.not_mem_nil p)
  | cons q t ih =>
    simp only [List.foldl_cons]
    obtain ⟨p, hp, hpy⟩ := hmem
    rcases List.mem_cons.mp hp with rfl | hpt
    · apply weightsFold_preserve _ _ _ (putWhere_length _ _ _ _ ho) i hi
      rw [putWhere_getD _ _ _ _ i hi ho, if_pos hpy.symm]
      exact le_max_right _ _
    · exact ih _ (putWhere_length _ _ _ _ ho) ⟨p, hpt, hpy⟩

/-- Claim C4: for every bin-level distribution w_bin (zero entries included)
and every non-empty y_train whose labels are all covered by ylevels (with
w_bin indexed by ylevels, the data-model invariant), every entry of the
per-instance weight array produced by `_dsea_weights` is ≥ 1/n_train. -/
theorem dsea_weights_floor (y_train : List ℤ) (w_bin : List ℚ) (ylevels : List ℤ)
    (hne : y_train ≠ [])
    (hcov : ∀ yv ∈ y_train, yv ∈ ylevels)
    (hlen : w_bin.length = ylevels.length) :
    ∀ i, i < y_train.length →
      1 / (y_train.length : ℚ) ≤ (_dsea_weights y_train w_bin ylevels).getD i 0 := by
  intro i hi
  simp only [_dsea_weights]
  apply weightsFold_write _ _ _ (by simp) i hi
  have hyv : y_train.getD i 0 ∈ y_train := by
    rw [List.getD_eq_getElem _ _ hi]
    exact List.getElem_mem hi
  obtain ⟨j, hj, hje⟩ := List.mem_iff_getElem.mp (hcov _ hyv)
  have hwb : (normalizepdfQ w_bin).arr.length = ylevels.length := by
    rw [normalizepdfQ_length, hlen]
  have hjz : j < (ylevels.zip (normalizepdfQ w_bin).arr).length := by
    rw [List.length_zip, hwb, min_self]
    exact hj
  refine ⟨(ylevels.zip (normalizepdfQ w_bin).arr).get ⟨j, hjz⟩, List.get_mem _ _ _, ?_⟩
  rw [List.get_eq_getElem, List.getElem_zip]
  exact hje

/-- Witness for C4 at y_train = [0,0,1], w_bin = [1,0] (a zero entry),
ylevels = [0,1]: the weight of the third instance is still ≥ 1/3. -/
theorem dsea_weights_floor_witness :
    ([0, 0, 1] : List ℤ) ≠ [] ∧
    1 / ((([0, 0, 1] : List ℤ).length : ℚ))
      ≤ (_dsea_weights [0, 0, 1] [1, 0] [0, 1]).getD 2 0 :=
  ⟨by with_unfolding_all decide,
   dsea_weights_floor [0, 0, 1] [1, 0] [0, 1] (by with_unfolding_all decide)
     (by with_unfolding_all decide) (by with_unfolding_all decide) 2
     (by with_unfolding_all decide)⟩

/-! Helper lemmas for the response matrix (claim C8). -/

theorem foldrMax_le (xs : List ℕ) (J : ℕ) (h : ∀ v ∈ xs, v < J) :
    xs.foldr (fun a m => max (a + 1) m) 0 ≤ J := by
  induction xs with
  | nil => simp
  | cons a t ih =>
    simp only [List.foldr_cons]
    exact max_le (h a (List.mem_cons_self a t)) (ih fun v hv => h v (List.mem_cons_of_mem a hv))

theorem bincount_length (xs : List ℕ) (J : ℕ) (h : ∀ v ∈ xs, v < J) :
    (bincount xs J).length = J := by
  simp only [bincount, List.length_map, List.length_range]
  exact max_eq_left (foldrMax_le xs J h)

theorem bincount_getD (xs : List ℕ) (J a : ℕ) (hb : ∀ v ∈ xs, v < J) (ha : a < J) :
    (bincount xs J).getD a 0 = xs.count a := by
  have hlen : (bincount xs J).length = J := bincount_length xs J hb
  rw [List.getD_eq_getElem _ _ (by rw [hlen]; exact ha)]
  simp [bincount]

theorem selectTarget_subset (x y : List ℕ) (i : ℕ) :
    ∀ v ∈ selectTarget x y i, v ∈ x := by
  intro v hv
  simp only [selectTarget, List.mem_map, List.mem_filter] at hv
  obtain ⟨⟨a, b⟩, ⟨hzip, _⟩, rfl⟩ := hv
  exact (List.of_mem_zip hzip).1

theorem selectTarget_mem (x y : List ℕ) (i : ℕ) (hxy : x.length = y.length)
    (hiy : i ∈ y) : ∃ v, v ∈ selectTarget x y i := by
  obtain ⟨k, hk, hke⟩ := List.mem_iff_getElem.mp hiy
  have hkx : k < x.length := by rw [hxy]; exact hk
  have hkz : k < (x.zip y).length := by
    rw [List.length_zip, hxy, min_self]; exact hk
  refine ⟨x.get ⟨k, hkx⟩, ?_⟩
  simp only [selectTarget, List.mem_map, List.mem_filter]
  refine ⟨(x.zip y).get ⟨k, hkz⟩, ⟨List.get_mem _ _ _, ?_⟩, ?_⟩
  · rw [List.get_eq_getElem, List.getElem_zip]
    simpa using hke
  · simp [List.getElem_zip]

theorem sum_pos_of_nonneg_of_mem (l : List ℚ) (hnn : ∀ q ∈ l, 0 ≤ q)
    (x : ℚ) (hx : x ∈ l) (hxpos : 0 < x) : 0 < l.sum := by
  induction l with
  | nil => cases hx
  | cons a t ih =>
    rcases List.mem_cons.mp hx with rfl | hxt
    · have ht : 0 ≤ t.sum :=
        List.sum_nonneg fun q hq => hnn q (List.mem_cons_of_mem _ hq)
      simpa using add_pos_of_pos_of_nonneg hxpos ht
    · have ha : 0 ≤ a := hnn a (List.mem_cons_self _ _)
      have ht := ih (fun q hq => hnn q (List.mem_cons_of_mem _ hq)) hxt
      simpa using add_pos_of_nonneg_of_pos ha ht

theorem fitRLoop_ok (x y : List ℕ) (J : ℕ) (normalize : Bool) (l : List ℕ)
    (h : ∀ i ∈ l, ((bincount (selectTarget x y i) J).map (Nat.cast : ℕ → ℚ)).length = J) :
    fitRLoop x y J normalize l
      = Except.ok (l.map (fun i =>
          if normalize then
            (normalizepdfQ ((bincount (selectTarget x y i) J).map (Nat.cast : ℕ → ℚ))).arr
          else (bincount (selectTarget x y i) J).map (Nat.cast : ℕ → ℚ))) := by
  induction l with
  | nil => rfl
  | cons i t ih =>
    simp only [fitRLoop, List.map_cons]
    rw [if_pos (h i (List.mem_cons_self i t)),
      ih (fun j hj => h j (List.mem_cons_of_mem i hj))]

/-- Claim C8: for parallel arrays of 0-based cluster indices x and target
indices y (0-based means every value is below the number of distinct values of
its array), fit_R with normalize = true returns a matrix of I = #unique(y)
columns of length J = #unique(x) each; column i is the bincount (minimum
length J) of the cluster indices of the instances whose target equals i,
normalized to a PMF; and each column whose target level has at least one
matching instance sums to 1 (with nonnegative entries). -/
theorem fit_R_spec (x y : List ℕ)
    (hxy : x.length = y.length)
    (hx : ∀ v ∈ x, v < (npUniqueN x).length)
    (hy : ∀ v ∈ y, v < (npUniqueN y).length) :
    ∃ R : List (List ℚ),
      fit_R x y true = Except.ok R ∧
      R.length = (npUniqueN y).length ∧
      (∀ col ∈ R, col.length = (npUniqueN x).length) ∧
      (∀ i, i < (npUniqueN y).length →
        R.getD i []
          = (normalizepdfQ ((bincount (selectTarget x y i) ((npUniqueN x).length)).map
              (Nat.cast : ℕ → ℚ))).arr) ∧
      (∀ i ∈ y, (R.getD i []).sum = 1 ∧ ∀ q ∈ R.getD i [], 0 ≤ q) := by
  set J := (npUniqueN x).length with hJ
  set I := (npUniqueN y).length with hI
  have hbcb : ∀ i : ℕ, ∀ v ∈ selectTarget x y i, v < J :=
    fun i v hv => hx v (selectTarget_subset x y i v hv)
  have hbclen : ∀ i : ℕ,
      ((bincount (selectTarget x y i) J).map (Nat.cast : ℕ → ℚ)).length = J := by
    intro i
    rw [List.length_map]
    exact bincount_length _ _ (hbcb i)
  have hok : fit_R x y true
      = Except.ok ((List.range I).map (fun i =>
          (normalizepdfQ ((bincount (selectTarget x y i) J).map (Nat.cast : ℕ → ℚ))).arr)) := by
    show fitRLoop x y J true (List.range I) = _
    rw [fitRLoop_ok x y J true (List.range I) (fun i _ => hbclen i)]
    simp
  refine ⟨_, hok, ?_, ?_, ?_, ?_⟩
  · simp
  · intro col hcol
    simp only [List.mem_map] at hcol
    obtain ⟨i, _, rfl⟩ := hcol
    rw [normalizepdfQ_length]
    exact hbclen i
  · intro i hiI
    rw [List.getD_eq_getElem _ _ (by simpa using hiI)]
    simp
  · intro i hiy
    have hiI : i < I := hy i hiy
    have hcol : ((List.range I).map (fun i =>
        (normalizepdfQ ((bincount (selectTarget x y i) J).map (Nat.cast : ℕ → ℚ))).arr)).getD i []
          = (normalizepdfQ ((bincount (selectTarget x y i) J).map (Nat.cast : ℕ → ℚ))).arr := by
      rw [List.getD_eq_getElem _ _ (by simpa using hiI)]
      simp
    rw [hcol]
    have hnn : ∀ q ∈ (bincount (selectTarget x y i) J).map (Nat.cast : ℕ → ℚ), 0 ≤ q := by
      intro q hq
      simp only [List.mem_map] at hq
      obtain ⟨n, _, rfl⟩ := hq
      exact Nat.cast_nonneg n
    obtain ⟨v, hv⟩ := selectTarget_mem x y i hxy hiy
    have hvJ : v < J := hbcb i v hv
    have hcount : 0 < (selectTarget x y i).count v := List.count_pos_iff.mpr hv
    have hblen : (bincount (selectTarget x y i) J).length = J :=
      bincount_length _ _ (hbcb i)
    have hentry : ((selectTarget x y i).count v : ℚ)
        ∈ (bincount (selectTarget x y i) J).map (Nat.cast : ℕ → ℚ) := by
      rw [List.mem_map]
      refine ⟨(selectTarget x y i).count v, ?_, rfl⟩
      have := bincount_getD (selectTarget x y i) J v (hbcb i) hvJ
      rw [List.getD_eq_getElem _ _ (by rw [hblen]; exact hvJ)] at this
      rw [← this]
      exact List.getElem_mem _
    have hspos : 0 < ((bincount (selectTarget x y i) J).map (Nat.cast : ℕ → ℚ)).sum :=
      sum_pos_of_nonneg_of_mem _ hnn _ hentry (by exact_mod_cast hcount)
    exact ⟨normalizepdfQ_sum _ hspos.ne', normalizepdfQ_nonneg _ hspos.ne' hnn⟩

/-- Witness for C8 at x = [0, 1, 0], y = [0, 0, 1]: the response matrix is
[[1/2, 1/2], [1, 0]] (column major) and the column of target level 0 sums
to 1. -/
theorem fit_R_spec_witness :
    fit_R [0, 1, 0] [0, 0, 1] true = Except.ok [[1 / 2, 1 / 2], [1, 0]] ∧
    (([[1 / 2, 1 / 2], [(1 : ℚ), 0]] : List (List ℚ)).getD 0 []).sum = 1 := by
  have h := fit_R_spec [0, 1, 0] [0, 0, 1] (by with_unfolding_all decide)
    (by with_unfolding_all decide) (by with_unfolding_all decide)
  obtain ⟨R, hR, -, -, -, h5⟩ := h
  have heval : fit_R [0, 1, 0] [0, 0, 1] true = Except.ok [[1 / 2, 1 / 2], [1, 0]] := by
    with_unfolding_all decide
  refine ⟨heval, ?_⟩
  have hReq : R = [[1 / 2, 1 / 2], [1, 0]] := Except.ok.inj (hR.symm.trans heval)
  have h50 := (h5 0 (by with_unfolding_all decide)).1
  rw [hReq] at h50
  exact h50
